import Mathlib

/-!
Shallow embedding of `disc_matcher.py` (the Discogs album matcher).

Strings are modelled as `List Char` (`Str`), mirroring Python string
operations character by character:
  * `pyStrip`       = `str.strip()` (ASCII whitespace),
  * `stripWith`     = `str.strip(chars)` for a character class,
  * `splitFirst`    = `str.split(sep, 1)` / the `sep in s` test,
  * `splitOnChar`   = `str.split(',')`,
  * `joinCS`        = `', '.join(xs)`.

The data model (`AlbumInfo`, `PersistDict`, `ReleaseData`) and the
operations (`fromRelease`, `toDict`, `fromDict`, `sanitizeFilename`,
`getSuggestedFolderName`, `processImages`, `handleSingleSearchSelection`,
`processFoldersEntry`, `batchRename`) are translated from the source file.
-/

namespace DiscMatcher

abbrev Str := List Char

/-- ASCII whitespace, the character class removed by Python `str.strip()`. -/
def pySpace (c : Char) : Bool :=
  c = ' ' || c = '\t' || c = '\n' || c = '\r' || c.toNat = 11 || c.toNat = 12

/-- Python `s.strip(chars)`: drop characters satisfying `p` from both ends. -/
def stripWith (p : Char → Bool) (s : Str) : Str :=
  List.rdropWhile p (List.dropWhile p s)

/-- Python `s.strip()`. -/
def pyStrip (s : Str) : Str := stripWith pySpace s

/-- Python `s.split(sep, 1)`: `some (before, after)` at the first occurrence
of `sep`, `none` when `sep` does not occur (`sep` is never empty here). -/
def splitFirst (sep : Str) : Str → Option (Str × Str)
  | [] => none
  | c :: rest =>
    if sep.isPrefixOf (c :: rest) then some ([], (c :: rest).drop sep.length)
    else
      match splitFirst sep rest with
      | some (a, b) => some (c :: a, b)
      | none => none

/-- Python `sep in s` for a nonempty separator. -/
def containsSub (sep s : Str) : Bool := (splitFirst sep s).isSome

/-- Python `s.split(sep)` for a single-character separator. -/
def splitOnChar (sep : Char) : Str → List Str
  | [] => [[]]
  | c :: rest =>
    if c = sep then [] :: splitOnChar sep rest
    else
      match splitOnChar sep rest with
      | [] => [[c]]
      | a :: as => (c :: a) :: as

/-- Python `', '.join(xs)`. -/
def joinCS (xs : List Str) : Str := List.intercalate [',', ' '] xs

/-- The separator `" - "` used to split a raw title into performer/album. -/
def sepDash : Str := [' ', '-', ' ']

/-- One track of a tracklist: the position/title/duration triple that
`process_release` stores and `to_dict`/`from_dict` pass through. -/
structure Track where
  position : Str
  title : Str
  duration : Str
deriving DecidableEq

/-- The release data consumed by `AlbumInfo.__init__` (fields of the Discogs
search result / of the synthetic dict built by `from_dict`); `label` holds the
label names after the dict/string normalization of the constructor. -/
structure ReleaseData where
  id : Option Int := none
  title : Str := []
  year : Str := []
  cover_image : Str := []
  thumb : Str := []
  label : List Str := []
  catno : Str := []
  country : Str := []
  genre : List Str := []
  style : List Str := []
deriving DecidableEq

/-- The in-memory album record built by `AlbumInfo.__init__` plus the
details fields (`notes`, `tracklist`, `images`) set later. -/
structure AlbumInfo where
  release_id : Option Int
  title : Str
  year : Str
  cover_image : Str
  thumb : Str
  artist : Str
  album_name : Str
  label_names : List Str
  catalog_no : Str
  country : Str
  genre : List Str
  style : List Str
  notes : Str
  tracklist : List Track
  images : List Str
deriving DecidableEq

/-- Embedding of `AlbumInfo.__init__`: split the raw title on the first
`" - "` (performer/album both stripped); without a separator the performer is
empty and the album name is the raw title (not stripped). -/
def fromRelease (rd : ReleaseData) : AlbumInfo :=
  let split :=
    match splitFirst sepDash rd.title with
    | some (a, b) => (pyStrip a, pyStrip b)
    | none => ([], rd.title)
  { release_id := rd.id
    title := rd.title
    year := rd.year
    cover_image := rd.cover_image
    thumb := rd.thumb
    artist := split.1
    album_name := split.2
    label_names := rd.label
    catalog_no := rd.catno
    country := rd.country
    genre := rd.genre
    style := rd.style
    notes := []
    tracklist := []
    images := [] }

/-- The persisted dictionary produced by `AlbumInfo.to_dict` (the JSON
metadata file): label/genre/style lists are comma-space joined strings. -/
structure PersistDict where
  performer : Str
  album : Str
  year : Str
  labels : Str
  catno : Str
  genreStr : Str
  styleStr : Str
  notes : Str
  discogsId : Option Int
  country : Str
  tracklist : List Track
deriving DecidableEq

/-- Embedding of `AlbumInfo.to_dict`. -/
def toDict (a : AlbumInfo) : PersistDict :=
  { performer := a.artist
    album := a.album_name
    year := a.year
    labels := joinCS a.label_names
    catno := a.catalog_no
    genreStr := joinCS a.genre
    styleStr := joinCS a.style
    notes := a.notes
    discogsId := a.release_id
    country := a.country
    tracklist := a.tracklist }

/-- The comma-split/strip/filter applied by `from_dict` to the joined
genre/style/label strings. -/
def parseList (s : Str) : List Str :=
  if s = [] then []
  else ((splitOnChar ',' s).map pyStrip).filter (fun x => !x.isEmpty)

/-- Embedding of `AlbumInfo.from_dict`: rebuild a synthetic title from the
stripped performer/album fields, split the joined genre/style/label strings,
construct via `fromRelease`, then set notes and tracklist; the image fields
are left empty. -/
def fromDict (d : PersistDict) : AlbumInfo :=
  let artist := pyStrip d.performer
  let album := pyStrip d.album
  let title :=
    if artist ≠ [] ∧ album ≠ [] then artist ++ sepDash ++ album
    else if album ≠ [] then album
    else if artist ≠ [] then artist
    else []
  let rd : ReleaseData :=
    { id := d.discogsId
      title := title
      year := if d.year = [] then [] else d.year
      cover_image := []
      thumb := []
      label := parseList d.labels
      catno := d.catno
      country := d.country
      genre := parseList d.genreStr
      style := parseList d.styleStr }
  let a := fromRelease rd
  { a with notes := d.notes, tracklist := d.tracklist }

/-- The Windows-illegal character class of `sanitize_filename`. -/
def illegalChar (c : Char) : Bool :=
  ['<', '>', ':', '"', '/', '\\', '|', '?', '*'].contains c

/-- Space or period, the class stripped from both ends by
`sanitize_filename`. -/
def spaceDot (c : Char) : Bool := c = ' ' || c = '.'

/-- Replacement step of `sanitize_filename`: each illegal character becomes
an underscore. -/
def replIllegal (c : Char) : Char := if illegalChar c then '_' else c

/-- Embedding of `re.sub(r'_+', '_', s)`: collapse each run of underscores
to a single underscore; the flag records whether the previous character kept
was an underscore. -/
def collapseUnd : Bool → Str → Str
  | _, [] => []
  | prevU, c :: rest =>
    if c = '_' then
      if prevU then collapseUnd true rest else '_' :: collapseUnd true rest
    else c :: collapseUnd false rest

/-- Embedding of `AlbumInfo.sanitize_filename`: replace illegal characters
by underscores, strip spaces and periods from both ends, collapse underscore
runs. -/
def sanitizeFilename (s : Str) : Str :=
  collapseUnd false (stripWith spaceDot (s.map replIllegal))

/-- Does the string contain two adjacent underscores? -/
def hasDoubleUnd : Str → Bool
  | [] => false
  | [_] => false
  | a :: b :: rest => (a == '_' && b == '_') || hasDoubleUnd (b :: rest)

/-- Embedding of `AlbumInfo.get_suggested_folder_name`: join the sanitized
artist, the year and the sanitized album name (each when nonempty) with
`" - "` and sanitize the joined string; when all three are empty, sanitize
the raw title. -/
def getSuggestedFolderName (a : AlbumInfo) : Str :=
  let parts : List Str :=
    (if a.artist ≠ [] then [sanitizeFilename a.artist] else []) ++
    (if a.year ≠ [] then [a.year] else []) ++
    (if a.album_name ≠ [] then [sanitizeFilename a.album_name] else [])
  if parts ≠ [] then sanitizeFilename (List.intercalate sepDash parts)
  else sanitizeFilename a.title

/-- The detail fields fetched by `get_release_details` and consumed by
`process_release`; `images` holds the `uri` entries of the `images` list. -/
structure Details where
  notes : Str := []
  tracklist : List Track := []
  images : List Str := []
deriving DecidableEq

/-- The record construction part of `process_release`: build the record from
the release data, and when a release id is present and details were fetched,
set notes, tracklist and the nonempty image URIs. -/
def processRelease (rd : ReleaseData) (fetched : Option Details) : AlbumInfo :=
  let a := fromRelease rd
  match a.release_id, fetched with
  | some _, some d =>
    { a with
        notes := d.notes
        tracklist := d.tracklist
        images := d.images.filter (fun u => !u.isEmpty) }
  | _, _ => a

/-- File base name `cover.jpg`. -/
def coverJpg : Str := ("cover.jpg").data

/-- Extension chosen from the URI string in `process_release`: `.png`,
`.gif`, `.webp` substrings of the lowercased URI checked in that order,
otherwise `jpg`. -/
def extFor (url : Str) : Str :=
  let l := url.map Char.toLower
  if containsSub ((".png").data) l then ("png").data
  else if containsSub ((".gif").data) l then ("gif").data
  else if containsSub ((".webp").data) l then ("webp").data
  else ("jpg").data

/-- File name used for the image at 0-based list index `i` in the download
loop of `process_release` (the `else` branch): `image_<i+1>.<ext>`. -/
def imageName (i : Nat) (url : Str) : Str :=
  ("image_").data ++ (toString (i + 1)).data ++ '.' :: extFor url

/-- The download loop of `process_release` over the details' image list,
modelling every download as successful: `i` is the `enumerate` index, `dl`
the set of already downloaded URIs. Returns the `(uri, filename)` pairs
downloaded and the final downloaded set. -/
def downloadLoop (cover : Str) : Nat → List Str → List Str → List (Str × Str) × List Str
  | _, [], dl => ([], dl)
  | i, u :: rest, dl =>
    if u ≠ [] ∧ u ∉ dl then
      let name := if i = 0 ∧ cover = [] then coverJpg else imageName i u
      let r := downloadLoop cover (i + 1) rest (u :: dl)
      ((u, name) :: r.1, r.2)
    else downloadLoop cover (i + 1) rest dl

/-- The image-download sequence of `process_release` (downloads modelled as
successful): first the base cover image when it is not in the details list
(saved as `cover.jpg`), then the loop over the details list, then the final
catch-all re-download of the cover when still missing. Returns the
`(uri, filename)` pairs in download order. -/
def processImages (cover : Str) (images : List Str) : List (Str × Str) :=
  let headDl : List (Str × Str) × List Str :=
    if cover ≠ [] ∧ cover ∉ images then ([(cover, coverJpg)], [cover]) else ([], [])
  let loopDl := downloadLoop cover 0 images headDl.2
  let tailDl : List (Str × Str) :=
    if cover ≠ [] ∧ cover ∉ loopDl.2 then [(cover, coverJpg)] else []
  headDl.1 ++ loopDl.1 ++ tailDl

/-- Status displayed for a folder entry. -/
inductive Status
  | pending
  | searching
  | completed
  | notFound
deriving DecidableEq

/-- A folder registry entry: the attached record (the third component of the
`album_folders` tuple) and the status shown in the tree. -/
structure Entry where
  info : Option AlbumInfo
  status : Status
deriving DecidableEq

/-- Embedding of `_handle_single_search_selection`: `existing` is the record
attached before the re-search, `results` the search results shown in the
dialog, `sel` the user's selection (`none` on cancel or timeout), `fetch`
the detail lookup used by `process_release`. -/
def handleSingleSearchSelection (fetch : ReleaseData → Option Details)
    (existing : Option AlbumInfo) (results : List ReleaseData)
    (sel : Option ReleaseData) : Entry :=
  match sel with
  | some r => { info := some (processRelease r (fetch r)), status := .completed }
  | none =>
    if results.isEmpty then { info := existing, status := .notFound }
    else
      match existing with
      | some e => { info := some e, status := .completed }
      | none => { info := none, status := .pending }

/-- One iteration of the `process_folders` batch loop for a single entry:
entries with an attached record are skipped; otherwise the entry is marked
searching, and a unique search result is auto-accepted while zero or several
results open the selection dialog (`sel` is the user's choice there).
Returns the successive entry states written for this entry and whether the
selection dialog was shown. -/
def processFoldersEntry (fetch : ReleaseData → Option Details) (e : Entry)
    (results : List ReleaseData) (sel : Option ReleaseData) :
    List Entry × Bool :=
  match e.info with
  | some _ => ([], false)
  | none =>
    let s1 : Entry := { info := none, status := .searching }
    match results with
    | [r] => ([s1, { info := some (processRelease r (fetch r)), status := .completed }], false)
    | rs =>
      ([s1,
        match sel with
        | some r => { info := some (processRelease r (fetch r)), status := .completed }
        | none =>
          if rs.isEmpty then { info := none, status := .notFound }
          else { info := none, status := .pending }], true)

/-- Events of the per-entry workflow named in the spec: scan-time load of a
persisted record, the batch loop, and the single re-search with its
selection, cancellation and error outcomes. -/
inductive Event
  | scanLoad (d : Option PersistDict)
  | batchStart
  | batchAccept (r : ReleaseData) (d : Option Details)
  | batchCancel (results : List ReleaseData)
  | singleStart
  | singleAccept (r : ReleaseData) (d : Option Details)
  | singleCancel (results : List ReleaseData)
  | singleError

/-- One transition of a folder entry. Scan attaches the loaded record
(completed) or yields a fresh pending entry; the batch loop only touches
entries without a record; the single re-search marks searching, attaches the
processed record on acceptance, and on cancel or error runs
`_handle_single_search_selection` / `_handle_single_search_error` with the
record attached before the search. -/
def step (e : Entry) : Event → Entry
  | .scanLoad (some d) => { info := some (fromDict d), status := .completed }
  | .scanLoad none => { info := none, status := .pending }
  | .batchStart =>
    if e.info.isNone then { e with status := .searching } else e
  | .batchAccept r d =>
    if e.info.isNone then { info := some (processRelease r d), status := .completed } else e
  | .batchCancel results =>
    if e.info.isNone then
      if results.isEmpty then { e with status := .notFound }
      else { e with status := .pending }
    else e
  | .singleStart => { e with status := .searching }
  | .singleAccept r d => { info := some (processRelease r d), status := .completed }
  | .singleCancel results =>
    if results.isEmpty then { info := e.info, status := .notFound }
    else
      match e.info with
      | some i => { info := some i, status := .completed }
      | none => { info := none, status := .pending }
  | .singleError =>
    match e.info with
    | some i => { info := some i, status := .completed }
    | none => { info := none, status := .pending }

/-- Run a sequence of events from an initial entry. -/
def runEvents (init : Entry) (evs : List Event) : Entry := evs.foldl step init

/-- State of the `batch_rename` loop: the existing directory names of the
root folder, the three counters, and the trace of attempted renames
`(old name, new name, directories existing at the attempt)`. -/
structure RenState where
  fs : List Str
  renamed : Nat
  skipped : Nat
  errors : Nat
  trace : List (Str × Str × List Str)

/-- One iteration of `batch_rename` for the registry entry
`(display name, attached record)`: entries without a record are ignored; an
empty or unchanged suggested name or an existing destination is counted as
skipped; otherwise the rename is attempted (`ok` tells whether the
filesystem rename succeeds) and counted as success or error. -/
def batchRenameStep (ok : Str → Str → Bool) (st : RenState)
    (entry : Str × Option AlbumInfo) : RenState :=
  match entry.2 with
  | none => st
  | some a =>
    let suggested := getSuggestedFolderName a
    if suggested = [] ∨ suggested = entry.1 then { st with skipped := st.skipped + 1 }
    else if suggested ∈ st.fs then { st with skipped := st.skipped + 1 }
    else if ok entry.1 suggested then
      { st with
          fs := suggested :: st.fs.erase entry.1
          renamed := st.renamed + 1
          trace := st.trace ++ [(entry.1, suggested, st.fs)] }
    else
      { st with
          errors := st.errors + 1
          trace := st.trace ++ [(entry.1, suggested, st.fs)] }

/-- Embedding of `batch_rename` over the registry entries, starting from the
directory names `fs0` existing under the root folder. -/
def batchRename (ok : Str → Str → Bool) (entries : List (Str × Option AlbumInfo))
    (fs0 : List Str) : RenState :=
  entries.foldl (batchRenameStep ok) ⟨fs0, 0, 0, 0, []⟩

/-! Concrete sample data for the witness and counterexample instances. -/

/-- Sample search result with a well-formed `Artist - Album` title. -/
def rdAB : ReleaseData :=
  { id := some 42
    title := ("A - B").data
    year := ("2001").data
    cover_image := ("http://img/front.jpg").data
    label := [("Warp").data]
    catno := ("W1").data
    country := ("UK").data
    genre := [("Electronic").data]
    style := [("IDM").data] }

/-- Sample album record built from `rdAB` with detail fields set. -/
def albumAB : AlbumInfo :=
  { fromRelease rdAB with
      notes := ("gatefold").data
      tracklist := [⟨("1").data, ("Intro").data, ("3:00").data⟩] }

/-- Release data whose title has a performer part but an empty album part. -/
def rdXOnly : ReleaseData := { title := ("X - ").data }

/-- Release data whose separator-free title carries surrounding spaces. -/
def rdSpaceX : ReleaseData := { title := (" X ").data }

/-- Release data with an empty performer/album split but a year. -/
def rdYearOnly : ReleaseData := { title := (" - ").data, year := ("1998").data }

/-- Release data for the folder-name example of the spec. -/
def rdBoC : ReleaseData :=
  { title := ("Boards of Canada - Music Has the Right to Children").data
    year := ("1998").data }

/-- A cover-image URI containing the `.png` marker. -/
def coverPng : Str := ("http://img/front.png").data

/-- Release data with every field absent. -/
def rdEmpty : ReleaseData := {}

/-- Registry used by the batch-rename witness: one completed entry named
`Old`. -/
def renEntriesW : List (Str × Option AlbumInfo) := [(("Old").data, some albumAB)]

/-- Directory listing used by the batch-rename witness. -/
def renFsW : List Str := [("Old").data, ("Other").data]

/-- The rename attempt recorded by the batch-rename witness run. -/
def renTraceW : Str × Str × List Str := (("Old").data, getSuggestedFolderName albumAB, renFsW)

/-! Lemmas about the sanitization pipeline. -/

theorem mem_collapseUnd {c : Char} : ∀ {b : Bool} {l : Str}, c ∈ collapseUnd b l → c = '_' ∨ c ∈ l := by
  intro b l
  induction l generalizing b with
  | nil => simp [collapseUnd]
  | cons x r ih =>
    simp only [collapseUnd]
    split
    · next hx =>
      split
      · intro h
        rcases ih h with h' | h'
        · exact Or.inl h'
        · exact Or.inr (List.mem_cons_of_mem _ h')
      · intro h
        rcases List.mem_cons.mp h with h' | h'
        · exact Or.inl h'
        · rcases ih h' with h'' | h''
          · exact Or.inl h''
          · exact Or.inr (List.mem_cons_of_mem _ h'')
    · next hx =>
      intro h
      rcases List.mem_cons.mp h with h' | h'
      · exact Or.inr (h' ▸ List.mem_cons_self _ _)
      · rcases ih h' with h'' | h''
        · exact Or.inl h''
        · exact Or.inr (List.mem_cons_of_mem _ h'')

theorem collapseUnd_head? : ∀ l : Str, (collapseUnd false l).head? = l.head? := by
  intro l
  cases l with
  | nil => rfl
  | cons x r =>
    simp only [collapseUnd]
    split
    · next hx => simp [hx]
    · simp

theorem collapseUnd_true_head_ne {l : Str} {c : Char}
    (h : (collapseUnd true l).head? = some c) : c ≠ '_' := by
  induction l with
  | nil => simp [collapseUnd] at h
  | cons x r ih =>
    simp only [collapseUnd] at h
    revert h
    split
    · next hx => exact fun h => ih h
    · next hx =>
      intro h
      simp only [List.head?_cons, Option.some.injEq] at h
      exact h ▸ hx

theorem collapseUnd_false_ne_nil {x : Char} {r : Str} : collapseUnd false (x :: r) ≠ [] := by
  simp only [collapseUnd]
  split
  · simp
  · simp

theorem collapseUnd_getLast? : ∀ {b : Bool} {l : Str} {c : Char},
    (collapseUnd b l).getLast? = some c → l.getLast? = some c ∨ c = '_' := by
  intro b l
  induction l generalizing b with
  | nil => intro c h; simp [collapseUnd] at h
  | cons x r ih =>
    intro c h
    simp only [collapseUnd] at h
    have lift : r.getLast? = some c ∨ c = '_' → (x :: r).getLast? = some c ∨ c = '_' := by
      intro hr
      rcases hr with hr | hr
      · cases r with
        | nil => simp at hr
        | cons y r' => exact Or.inl (by rw [List.getLast?_cons_cons]; exact hr)
      · exact Or.inr hr
    revert h
    split
    · next hx =>
      subst hx
      split
      · exact fun h => lift (ih h)
      · intro h
        cases hcr : collapseUnd true r with
        | nil =>
          rw [hcr] at h
          simp at h
          exact Or.inr h.symm
        | cons y w =>
          rw [hcr, List.getLast?_cons_cons] at h
          rw [← hcr] at h
          exact lift (ih h)
    · next hx =>
      intro h
      cases hr : r with
      | nil =>
        subst hr
        simp only [collapseUnd] at h
        simp at h
        exact Or.inl (by simp [h])
      | cons y r' =>
        have hne : collapseUnd false r ≠ [] := by rw [hr]; exact collapseUnd_false_ne_nil
        rw [← hr]
        cases hcr : collapseUnd false r with
        | nil => exact absurd hcr hne
        | cons z w =>
          rw [hcr, List.getLast?_cons_cons, ← hcr] at h
          exact lift (ih h)

theorem hasDoubleUnd_cons_of {x : Char} {r : Str}
    (hx : hasDoubleUnd r = false) (hh : ∀ c, r.head? = some c → x = '_' → c ≠ '_') :
    hasDoubleUnd (x :: r) = false := by
  cases r with
  | nil => rfl
  | cons y w =>
    simp only [hasDoubleUnd, Bool.or_eq_false_iff, Bool.and_eq_false_iff, beq_eq_false_iff_ne,
      ne_eq]
    refine ⟨?_, hx⟩
    by_cases hxu : x = '_'
    · exact Or.inr (hh y rfl hxu)
    · exact Or.inl hxu

theorem hasDoubleUnd_collapseUnd : ∀ (l : Str) (b : Bool), hasDoubleUnd (collapseUnd b l) = false := by
  intro l
  induction l with
  | nil => intro b; rfl
  | cons x r ih =>
    intro b
    simp only [collapseUnd]
    split
    · next hx =>
      split
      · exact ih true
      · refine hasDoubleUnd_cons_of (ih true) ?_
        intro c hc _
        exact collapseUnd_true_head_ne hc
    · next hx =>
      refine hasDoubleUnd_cons_of (ih false) ?_
      intro c hc hxu
      exact absurd hxu hx

theorem collapseUnd_eq_self : ∀ l : Str, hasDoubleUnd l = false →
    collapseUnd false l = l ∧ (l.head? ≠ some '_' → collapseUnd true l = l) := by
  intro l
  induction l with
  | nil => intro _; exact ⟨rfl, fun _ => rfl⟩
  | cons x r ih =>
    intro hnd
    have hr : hasDoubleUnd r = false := by
      cases r with
      | nil => rfl
      | cons y w =>
        simp only [hasDoubleUnd, Bool.or_eq_false_iff] at hnd
        exact hnd.2
    constructor
    · simp only [collapseUnd]
      split
      · next hx =>
        subst hx
        have hhead : r.head? ≠ some '_' := by
          cases r with
          | nil => simp
          | cons y w =>
            simp only [hasDoubleUnd, Bool.or_eq_false_iff, Bool.and_eq_false_iff,
              beq_eq_false_iff_ne, ne_eq] at hnd
            rcases hnd.1 with h | h
            · simp at h
            · simp only [List.head?_cons, ne_eq, Option.some.injEq]
              exact h
        simp only [Bool.false_eq_true, if_false]
        rw [(ih hr).2 hhead]
      · next hx => rw [(ih hr).1]
    · intro hhead
      have hx : ¬x = '_' := by
        simp only [List.head?_cons, ne_eq, Option.some.injEq] at hhead
        exact hhead
      simp only [collapseUnd]
      rw [if_neg hx, (ih hr).1]

theorem stripWith_subset {p : Char → Bool} {s : Str} : stripWith p s ⊆ s := by
  intro c hc
  have h1 : c ∈ List.dropWhile p s :=
    (List.rdropWhile_prefix p (List.dropWhile p s)).subset hc
  exact (List.dropWhile_suffix p).subset h1

theorem head?_dropWhile_not {p : Char → Bool} : ∀ {s : Str} {c : Char},
    (List.dropWhile p s).head? = some c → p c = false := by
  intro s
  induction s with
  | nil => intro c h; simp [List.dropWhile] at h
  | cons x r ih =>
    intro c h
    rw [List.dropWhile_cons] at h
    revert h
    split
    · exact fun h => ih h
    · next hx =>
      intro h
      simp only [List.head?_cons, Option.some.injEq] at h
      subst h
      simpa using hx

theorem stripWith_head? {p : Char → Bool} {s : Str} {c : Char}
    (h : (stripWith p s).head? = some c) : p c = false := by
  unfold stripWith at h
  cases hrd : List.rdropWhile p (List.dropWhile p s) with
  | nil => rw [hrd] at h; simp at h
  | cons y w =>
    rw [hrd] at h
    simp only [List.head?_cons, Option.some.injEq] at h
    subst h
    rcases List.rdropWhile_prefix p (List.dropWhile p s) with ⟨t, ht⟩
    rw [hrd] at ht
    have : (List.dropWhile p s).head? = some y := by rw [← ht]; rfl
    exact head?_dropWhile_not this

theorem stripWith_getLast? {p : Char → Bool} {s : Str} {c : Char}
    (h : (stripWith p s).getLast? = some c) : p c = false := by
  unfold stripWith at h
  have hne : List.rdropWhile p (List.dropWhile p s) ≠ [] := by
    intro hnil
    rw [hnil] at h
    simp at h
  have hlast := List.rdropWhile_last_not p (List.dropWhile p s) hne
  rw [List.getLast?_eq_getLast_of_ne_nil hne] at h
  have : (List.rdropWhile p (List.dropWhile p s)).getLast hne = c := by
    simpa using h
  rw [this] at hlast
  simpa using hlast

theorem stripWith_eq_self {p : Char → Bool} {s : Str}
    (hh : ∀ c, s.head? = some c → p c = false)
    (hl : ∀ c, s.getLast? = some c → p c = false) : stripWith p s = s := by
  have hdw : List.dropWhile p s = s := by
    cases s with
    | nil => rfl
    | cons x r =>
      rw [List.dropWhile_cons, if_neg]
      simp [hh x rfl]
  unfold stripWith
  rw [hdw]
  rw [List.rdropWhile_eq_self_iff]
  intro hne
  have := hl (s.getLast hne) (List.getLast?_eq_getLast_of_ne_nil hne)
  simp [this]

theorem mem_sanitize_not_illegal {s : Str} : ∀ c ∈ sanitizeFilename s, illegalChar c = false := by
  intro c hc
  unfold sanitizeFilename at hc
  rcases mem_collapseUnd hc with h | h
  · subst h; rfl
  · have h2 := stripWith_subset h
    rcases List.mem_map.mp h2 with ⟨x, _, hx⟩
    subst hx
    unfold replIllegal
    split
    · rfl
    · next hni => simpa using hni

theorem sanitize_head? {s : Str} {c : Char}
    (h : (sanitizeFilename s).head? = some c) : spaceDot c = false := by
  unfold sanitizeFilename at h
  rw [collapseUnd_head?] at h
  exact stripWith_head? h

theorem sanitize_getLast? {s : Str} {c : Char}
    (h : (sanitizeFilename s).getLast? = some c) : spaceDot c = false := by
  unfold sanitizeFilename at h
  rcases collapseUnd_getLast? h with h' | h'
  · exact stripWith_getLast? h'
  · subst h'; rfl

theorem hasDoubleUnd_sanitize (s : Str) : hasDoubleUnd (sanitizeFilename s) = false :=
  hasDoubleUnd_collapseUnd _ false

theorem map_replIllegal_eq_self {s : Str} (h : ∀ c ∈ s, illegalChar c = false) :
    s.map replIllegal = s := by
  induction s with
  | nil => rfl
  | cons x r ih =>
    simp only [List.map_cons]
    rw [ih (fun c hc => h c (List.mem_cons_of_mem _ hc))]
    have hx := h x (List.mem_cons_self _ _)
    unfold replIllegal
    rw [if_neg (by simp [hx])]

theorem sanitize_fixed {t : Str}
    (hill : ∀ c ∈ t, illegalChar c = false)
    (hhead : ∀ c, t.head? = some c → spaceDot c = false)
    (hlast : ∀ c, t.getLast? = some c → spaceDot c = false)
    (hdbl : hasDoubleUnd t = false) : sanitizeFilename t = t := by
  unfold sanitizeFilename
  rw [map_replIllegal_eq_self hill, stripWith_eq_self hhead hlast,
    (collapseUnd_eq_self t hdbl).1]

theorem sanitize_idem (s : Str) : sanitizeFilename (sanitizeFilename s) = sanitizeFilename s :=
  sanitize_fixed mem_sanitize_not_illegal (fun _ h => sanitize_head? h)
    (fun _ h => sanitize_getLast? h) (hasDoubleUnd_sanitize s)

/-- C6: the filename sanitization is idempotent — for every input string,
sanitizing twice equals sanitizing once — and on the input
`AC/DC: Back In Black?` it returns exactly `AC_DC_ Back In Black_`. -/
theorem C6_sanitize_idempotent_and_example :
    (∀ s : Str, sanitizeFilename (sanitizeFilename s) = sanitizeFilename s) ∧
    sanitizeFilename (("AC/DC: Back In Black?").data) = ("AC_DC_ Back In Black_").data :=
  ⟨sanitize_idem, by decide⟩

/-- C10: for every input string, the sanitized output contains none of the
Windows-illegal characters, has no leading or trailing space or period, and
contains no two adjacent underscores. -/
theorem C10_sanitize_output_valid :
    ∀ s : Str,
      (∀ c ∈ sanitizeFilename s, illegalChar c = false) ∧
      (∀ c, (sanitizeFilename s).head? = some c → spaceDot c = false) ∧
      (∀ c, (sanitizeFilename s).getLast? = some c → spaceDot c = false) ∧
      hasDoubleUnd (sanitizeFilename s) = false :=
  fun s =>
    ⟨mem_sanitize_not_illegal, fun _ h => sanitize_head? h,
      fun _ h => sanitize_getLast? h, hasDoubleUnd_sanitize s⟩

/-- Witness for C10 at the concrete input `"  a__b? "` (sanitized to
`a_b_`), discharging the membership and head/last hypotheses there. -/
theorem C10_sanitize_output_valid_witness :
    illegalChar '_' = false ∧ spaceDot 'a' = false ∧ spaceDot '_' = false ∧
      hasDoubleUnd (sanitizeFilename (("  a__b? ").data)) = false :=
  let h := C10_sanitize_output_valid (("  a__b? ").data)
  ⟨h.1 '_' (by decide), h.2.1 'a' (by decide), h.2.2.1 '_' (by decide), h.2.2.2⟩

/-! Lemmas about `splitFirst`: it splits at the first occurrence of the
separator. -/

theorem isPrefixOf_append : ∀ {sep s : Str}, sep.isPrefixOf s = true → s = sep ++ s.drop sep.length := by
  intro sep
  induction sep with
  | nil => intro s _; simp
  | cons c cs ih =>
    intro s h
    cases s with
    | nil => simp [List.isPrefixOf] at h
    | cons d ds =>
      rw [List.isPrefixOf_cons₂, Bool.and_eq_true, beq_iff_eq] at h
      obtain ⟨rfl, h2⟩ := h
      have := ih h2
      calc c :: ds = c :: (cs ++ ds.drop cs.length) := by rw [← this]
    _ = (c :: cs) ++ (c :: ds).drop (c :: cs).length := by simp

theorem splitFirst_eq_some {sep : Str} : ∀ {s a b : Str}, splitFirst sep s = some (a, b) →
    s = a ++ sep ++ b ∧ ∀ k, k < a.length → sep.isPrefixOf (s.drop k) = false := by
  intro s
  induction s with
  | nil => intro a b h; simp [splitFirst] at h
  | cons c rest ih =>
    intro a b h
    simp only [splitFirst] at h
    revert h
    split
    · next hpre =>
      intro h
      simp only [Option.some.injEq, Prod.mk.injEq] at h
      obtain ⟨rfl, rfl⟩ := h
      refine ⟨?_, fun k hk => absurd hk (by simp)⟩
      simpa using isPrefixOf_append hpre
    · next hpre =>
      have hpre' : List.isPrefixOf sep (c :: rest) = false := by
        cases hb : List.isPrefixOf sep (c :: rest)
        · rfl
        · exact absurd hb hpre
      cases hrec : splitFirst sep rest with
      | none => intro h; simp at h
      | some p =>
        obtain ⟨a', b'⟩ := p
        intro h
        simp only [Option.some.injEq, Prod.mk.injEq] at h
        obtain ⟨rfl, rfl⟩ := h
        have ihr := ih hrec
        constructor
        · simpa using congrArg (fun t => c :: t) ihr.1
        · intro k hk
          cases k with
          | zero => simpa using hpre'
          | succ k' =>
            simp only [List.length_cons, Nat.succ_lt_succ_iff] at hk
            simpa using ihr.2 k' hk

theorem splitFirst_eq_none {sep : Str} (hsep : sep ≠ []) : ∀ {s : Str}, splitFirst sep s = none →
    ∀ k, sep.isPrefixOf (s.drop k) = false := by
  intro s
  induction s with
  | nil =>
    intro _ k
    cases sep with
    | nil => exact absurd rfl hsep
    | cons c cs => simp
  | cons c rest ih =>
    intro h k
    simp only [splitFirst] at h
    revert h
    split
    · intro h; simp at h
    · next hpre =>
      have hpre' : List.isPrefixOf sep (c :: rest) = false := by
        cases hb : List.isPrefixOf sep (c :: rest)
        · rfl
        · exact absurd hb hpre
      cases hrec : splitFirst sep rest with
      | none =>
        intro _
        cases k with
        | zero => simpa using hpre'
        | succ k' => simpa using ih hrec k'
      | some p => intro h; simp at h

/-- C2 counterexample: for the raw title `" X "`, which does not contain
`" - "`, the constructor keeps the album name equal to the raw title with
its surrounding spaces, so the album title differs from the trimmed raw
title asserted by the claim. -/
theorem C2_counterexample :
    containsSub sepDash rdSpaceX.title = false ∧
    (fromRelease rdSpaceX).artist = [] ∧
    (fromRelease rdSpaceX).album_name ≠ pyStrip rdSpaceX.title := by
  decide

/-- C2 (amended): when the raw title contains `" - "`, the performer is the
trimmed substring before the first occurrence and the album title is the
trimmed remainder; when it does not, the performer is empty and the album
title equals the raw title unchanged (not trimmed). -/
theorem C2_title_split (rd : ReleaseData) :
    (∀ pre post, splitFirst sepDash rd.title = some (pre, post) →
      rd.title = pre ++ sepDash ++ post ∧
      (∀ k, k < pre.length → sepDash.isPrefixOf (rd.title.drop k) = false) ∧
      (fromRelease rd).artist = pyStrip pre ∧
      (fromRelease rd).album_name = pyStrip post) ∧
    (splitFirst sepDash rd.title = none →
      (fromRelease rd).artist = [] ∧ (fromRelease rd).album_name = rd.title) := by
  constructor
  · intro pre post h
    have hc := splitFirst_eq_some h
    refine ⟨hc.1, hc.2, ?_, ?_⟩ <;> simp [fromRelease, h]
  · intro h
    constructor <;> simp [fromRelease, h]

/-- Witness for C2 at the titles `"A - B"` (split at the separator) and
`" X "` (no separator). -/
theorem C2_title_split_witness :
    ((fromRelease rdAB).artist = pyStrip (("A").data) ∧
      (fromRelease rdAB).album_name = pyStrip (("B").data)) ∧
    sepDash.isPrefixOf (rdAB.title.drop 0) = false ∧
    ((fromRelease rdSpaceX).artist = [] ∧ (fromRelease rdSpaceX).album_name = rdSpaceX.title) :=
  let h := (C2_title_split rdAB).1 (("A").data) (("B").data) (by decide)
  ⟨⟨h.2.2.1, h.2.2.2⟩, h.2.1 0 (by decide), (C2_title_split rdSpaceX).2 (by decide)⟩

/-- C7 counterexample: for the record built from the title `" - "` with
year `1998`, performer and album title are both empty, yet the suggested
folder name is the year `1998` rather than the sanitized raw title `-`. -/
theorem C7_counterexample :
    (fromRelease rdYearOnly).artist = [] ∧
    (fromRelease rdYearOnly).album_name = [] ∧
    getSuggestedFolderName (fromRelease rdYearOnly) = ("1998").data ∧
    getSuggestedFolderName (fromRelease rdYearOnly) ≠
      sanitizeFilename (fromRelease rdYearOnly).title := by
  decide

/-- C7 (amended): the suggested folder name joins the sanitized performer,
the year (when present) and the sanitized album title with `" - "` and
re-sanitizes the joined string; the sanitized raw title is returned only
when performer, album title and year are all empty; for performer `Boards
of Canada`, year `1998`, album `Music Has the Right to Children` it is
exactly `Boards of Canada - 1998 - Music Has the Right to Children`. -/
theorem C7_suggested_folder_name :
    (∀ a : AlbumInfo,
      (a.artist ≠ [] ∨ a.year ≠ [] ∨ a.album_name ≠ [] →
        getSuggestedFolderName a =
          sanitizeFilename (List.intercalate sepDash
            ((if a.artist ≠ [] then [sanitizeFilename a.artist] else []) ++
             (if a.year ≠ [] then [a.year] else []) ++
             (if a.album_name ≠ [] then [sanitizeFilename a.album_name] else [])))) ∧
      (a.artist = [] → a.year = [] → a.album_name = [] →
        getSuggestedFolderName a = sanitizeFilename a.title)) ∧
    getSuggestedFolderName (fromRelease rdBoC) =
      ("Boards of Canada - 1998 - Music Has the Right to Children").data := by
  constructor
  · intro a
    constructor
    · intro h
      have hne : ((if a.artist ≠ [] then [sanitizeFilename a.artist] else []) ++
          (if a.year ≠ [] then [a.year] else []) ++
          (if a.album_name ≠ [] then [sanitizeFilename a.album_name] else [])) ≠ [] := by
        rcases h with h | h | h <;> simp [h]
      simp only [getSuggestedFolderName]
      rw [if_pos hne]
    · intro h1 h2 h3
      simp [getSuggestedFolderName, h1, h2, h3]
  · decide

/-- Witness for C7 at the Boards of Canada record (join branch) and at the
all-empty record (raw-title branch). -/
theorem C7_suggested_folder_name_witness :
    getSuggestedFolderName (fromRelease rdBoC) =
      sanitizeFilename (List.intercalate sepDash
        ((if (fromRelease rdBoC).artist ≠ [] then [sanitizeFilename (fromRelease rdBoC).artist] else []) ++
         (if (fromRelease rdBoC).year ≠ [] then [(fromRelease rdBoC).year] else []) ++
         (if (fromRelease rdBoC).album_name ≠ [] then [sanitizeFilename (fromRelease rdBoC).album_name] else []))) ∧
    getSuggestedFolderName (fromRelease rdEmpty) = sanitizeFilename (fromRelease rdEmpty).title :=
  ⟨(C7_suggested_folder_name.1 (fromRelease rdBoC)).1 (Or.inl (by decide)),
   (C7_suggested_folder_name.1 (fromRelease rdEmpty)).2 (by decide) (by decide) (by decide)⟩

/-- C9: for a pending entry with no attached record whose search returns
exactly one result, the batch loop writes searching and then completed with
the processed record attached, and the selection dialog is never opened. -/
theorem C9_single_result_auto_accept (fetch : ReleaseData → Option Details)
    (e : Entry) (r : ReleaseData) (sel : Option ReleaseData)
    (hinfo : e.info = none) (hstatus : e.status = Status.pending) :
    processFoldersEntry fetch e [r] sel =
      ([⟨none, Status.searching⟩, ⟨some (processRelease r (fetch r)), Status.completed⟩],
        false) := by
  simp [processFoldersEntry, hinfo]

/-- Witness for C9 at a fresh pending entry and the sample search result. -/
theorem C9_single_result_auto_accept_witness :
    processFoldersEntry (fun _ => none) ⟨none, Status.pending⟩ [rdAB] none =
      ([⟨none, Status.searching⟩, ⟨some (processRelease rdAB none), Status.completed⟩],
        false) :=
  C9_single_result_auto_accept (fun _ => none) ⟨none, Status.pending⟩ rdAB none rfl rfl

/-- C4: evaluation at the failing input. A re-search of a completed entry
that returns zero results and is cancelled runs the not-found branch of
`_handle_single_search_selection` even though a prior record exists: the
status becomes not-found with the record still attached, instead of the
claimed restoration to completed. -/
theorem C4_zero_result_cancel_eval :
    handleSingleSearchSelection (fun _ => none) (some albumAB) [] none =
      { info := some albumAB, status := Status.notFound } ∧
    handleSingleSearchSelection (fun _ => none) (some albumAB) [rdAB] none =
      { info := some albumAB, status := Status.completed } ∧
    Status.notFound ≠ Status.completed :=
  ⟨rfl, rfl, by decide⟩

/-- C5: evaluation of a reachable event sequence — scan loads a persisted
record (completed), the user re-searches, the search returns zero results
and the dialog is cancelled. The final quiescent entry holds an attached
record while its status is not-found, violating the claimed
completed-iff-attached invariant. -/
theorem C5_invariant_violation_eval :
    runEvents ⟨none, Status.pending⟩
        [Event.scanLoad (some (toDict albumAB)), Event.singleStart, Event.singleCancel []] =
      ⟨some (fromDict (toDict albumAB)), Status.notFound⟩ ∧
    (some (fromDict (toDict albumAB))).isSome = true ∧
    Status.notFound ≠ Status.completed ∧
    Status.notFound ≠ Status.searching :=
  ⟨rfl, rfl, by decide, by decide⟩

/-! Lemmas about the image-download loop of `process_release`. -/

theorem downloadLoop_snd (cover : Str) : ∀ (imgs : List Str) (i : Nat) (dl : List Str),
    (downloadLoop cover i imgs dl).2 =
      ((downloadLoop cover i imgs dl).1.map Prod.fst).reverse ++ dl := by
  intro imgs
  induction imgs with
  | nil => intro i dl; simp [downloadLoop]
  | cons u rest ih =>
    intro i dl
    simp only [downloadLoop]
    split
    · next hu =>
      simp only [List.map_cons, List.reverse_cons]
      rw [ih (i + 1) (u :: dl)]
      simp
    · exact ih (i + 1) dl

theorem downloadLoop_nodup (cover : Str) : ∀ (imgs : List Str) (i : Nat) (dl : List Str),
    ((downloadLoop cover i imgs dl).1.map Prod.fst).Nodup ∧
    ∀ u ∈ (downloadLoop cover i imgs dl).1.map Prod.fst, u ∉ dl := by
  intro imgs
  induction imgs with
  | nil => intro i dl; simp [downloadLoop]
  | cons u rest ih =>
    intro i dl
    simp only [downloadLoop]
    split
    · next hu =>
      obtain ⟨hnd, hmem⟩ := ih (i + 1) (u :: dl)
      constructor
      · simp only [List.map_cons, List.nodup_cons]
        exact ⟨fun hc => (hmem u hc) (List.mem_cons_self _ _), hnd⟩
      · intro v hv
        simp only [List.map_cons, List.mem_cons] at hv
        rcases hv with rfl | hv
        · exact hu.2
        · exact fun hvdl => (hmem v hv) (List.mem_cons_of_mem _ hvdl)
    · exact ih (i + 1) dl

theorem downloadLoop_names (cover : Str) : ∀ (imgs : List Str) (i : Nat) (dl : List Str)
    (p : Str × Str), p ∈ (downloadLoop cover i imgs dl).1 →
    (p.2 = coverJpg ∧ i = 0 ∧ cover = [] ∧ imgs.head? = some p.1) ∨
    ∃ j, imgs[j]? = some p.1 ∧ p.2 = imageName (i + j) p.1 := by
  intro imgs
  induction imgs with
  | nil => intro i dl p hp; simp [downloadLoop] at hp
  | cons u rest ih =>
    intro i dl p hp
    simp only [downloadLoop] at hp
    revert hp
    split
    · next hu =>
      intro hp
      rcases List.mem_cons.mp hp with hpe | hp
      · subst hpe
        by_cases hz : i = 0 ∧ cover = []
        · left
          simp [hz.1, hz.2]
        · right
          exact ⟨0, by simp, by simp [hz]⟩
      · rcases ih (i + 1) (u :: dl) p hp with ⟨_, hi, _, _⟩ | ⟨j, hj, hn⟩
        · exact absurd hi (Nat.succ_ne_zero i)
        · right
          refine ⟨j + 1, by simpa using hj, ?_⟩
          rw [hn]
          congr 1
          omega
    · intro hp
      rcases ih (i + 1) dl p hp with ⟨_, hi, _, _⟩ | ⟨j, hj, hn⟩
      · exact absurd hi (Nat.succ_ne_zero i)
      · right
        refine ⟨j + 1, by simpa using hj, ?_⟩
        rw [hn]
        congr 1
        omega

theorem processImages_pos {cover : Str} {images : List Str}
    (h : cover ≠ [] ∧ cover ∉ images) :
    processImages cover images =
      (cover, coverJpg) :: (downloadLoop cover 0 images [cover]).1 ++
        (if cover ≠ [] ∧ cover ∉ (downloadLoop cover 0 images [cover]).2
          then [(cover, coverJpg)] else []) := by
  simp only [processImages]
  rw [if_pos h]
  rfl

theorem processImages_neg {cover : Str} {images : List Str}
    (h : ¬(cover ≠ [] ∧ cover ∉ images)) :
    processImages cover images =
      (downloadLoop cover 0 images []).1 ++
        (if cover ≠ [] ∧ cover ∉ (downloadLoop cover 0 images []).2
          then [(cover, coverJpg)] else []) := by
  simp only [processImages]
  rw [if_neg h]
  rfl

/-- C3 counterexample: for a base cover URI containing `.png` and no
details images, the only download writes the cover as `cover.jpg`, although
the extension derived from the URI is `png` — the cover file's extension is
not derived from the source URI as the claim states. -/
theorem C3_counterexample :
    processImages coverPng [] = [(coverPng, coverJpg)] ∧
    extFor coverPng = ("png").data ∧
    coverJpg ≠ ("cover.png").data := by
  decide

/-- C3 (amended): modelling every download as successful, no URI is
downloaded twice (the details' image list is deduplicated against the base
cover URI and against itself), every download written as the canonical
cover file uses the fixed name `cover.jpg` (its extension is not derived
from the URI) and is either the base cover URI or the head of the details
list when no base cover exists, and every other downloaded image from
0-based position `j` of the details list is written as
`image_<j+1>.<ext>` with the extension derived from its URI (`.png`,
`.gif`, `.webp` checked in that order, else `jpg`), so skipped entries
leave gaps in the numbering. -/
theorem C3_image_downloads (cover : Str) (images : List Str) :
    ((processImages cover images).map Prod.fst).Nodup ∧
    ∀ p ∈ processImages cover images,
      (p.2 = coverJpg ∧ (p.1 = cover ∨ (cover = [] ∧ images.head? = some p.1))) ∨
      ∃ j, images[j]? = some p.1 ∧ p.2 = imageName j p.1 := by
  have hshift : ∀ (dl : List Str) (p : Str × Str), p ∈ (downloadLoop cover 0 images dl).1 →
      (p.2 = coverJpg ∧ (p.1 = cover ∨ (cover = [] ∧ images.head? = some p.1))) ∨
      ∃ j, images[j]? = some p.1 ∧ p.2 = imageName j p.1 := by
    intro dl p hp
    rcases downloadLoop_names cover images 0 dl p hp with ⟨hc, _, hcov, hh⟩ | ⟨j, hj, hn⟩
    · exact Or.inl ⟨hc, Or.inr ⟨hcov, hh⟩⟩
    · exact Or.inr ⟨j, hj, by simpa using hn⟩
  by_cases hA : cover ≠ [] ∧ cover ∉ images
  · have hsnd := downloadLoop_snd cover images 0 [cover]
    obtain ⟨hnd, hmem⟩ := downloadLoop_nodup cover images 0 [cover]
    have hcin : cover ∈ (downloadLoop cover 0 images [cover]).2 := by
      rw [hsnd]
      exact List.mem_append_right _ (List.mem_cons_self _ _)
    have htail : ¬(cover ≠ [] ∧ cover ∉ (downloadLoop cover 0 images [cover]).2) :=
      fun hc => hc.2 hcin
    rw [processImages_pos hA, if_neg htail]
    constructor
    · simp only [List.append_nil, List.map_cons, List.nodup_cons]
      exact ⟨fun hc => (hmem cover hc) (List.mem_cons_self _ _), hnd⟩
    · intro p hp
      simp only [List.append_nil, List.mem_cons] at hp
      rcases hp with hpe | hp
      · subst hpe
        exact Or.inl ⟨rfl, Or.inl rfl⟩
      · exact hshift [cover] p hp
  · obtain ⟨hnd, hmem⟩ := downloadLoop_nodup cover images 0 []
    have hsnd := downloadLoop_snd cover images 0 []
    rw [processImages_neg hA]
    by_cases hT : cover ≠ [] ∧ cover ∉ (downloadLoop cover 0 images []).2
    · rw [if_pos hT]
      constructor
      · rw [List.map_append]
        refine List.Nodup.append hnd (by simp) ?_
        intro v hv hv'
        simp only [List.map_cons, List.map_nil, List.mem_singleton] at hv'
        subst hv'
        apply hT.2
        rw [hsnd]
        simpa using hv
      · intro p hp
        rcases List.mem_append.mp hp with hp | hp
        · exact hshift [] p hp
        · simp only [List.mem_singleton] at hp
          subst hp
          exact Or.inl ⟨rfl, Or.inl rfl⟩
    · rw [if_neg hT, List.append_nil]
      exact ⟨hnd, fun p hp => hshift [] p hp⟩

/-- Witness for C3 at the empty base cover and a one-element details list,
instantiating the per-download characterization at the downloaded pair. -/
theorem C3_image_downloads_witness :
    ((processImages [] [("a.png").data]).map Prod.fst).Nodup ∧
    (((("a.png").data, coverJpg).2 = coverJpg ∧
        ((("a.png").data, coverJpg).1 = [] ∨
          ([] : Str) = [] ∧ [("a.png").data].head? = some (("a.png").data, coverJpg).1)) ∨
      ∃ j, [("a.png").data][j]? = some (("a.png").data, coverJpg).1 ∧
        (("a.png").data, coverJpg).2 = imageName j (("a.png").data, coverJpg).1) :=
  ⟨(C3_image_downloads [] [("a.png").data]).1,
   (C3_image_downloads [] [("a.png").data]).2 ((("a.png").data, coverJpg)) (by decide)⟩

/-! Lemmas about the `batch_rename` fold. -/

theorem batchRename_fold_trace_safe (ok : Str → Str → Bool) :
    ∀ (entries : List (Str × Option AlbumInfo)) (st : RenState),
      (∀ t ∈ st.trace, t.2.1 ∉ t.2.2) →
      ∀ t ∈ (entries.foldl (batchRenameStep ok) st).trace, t.2.1 ∉ t.2.2 := by
  intro entries
  induction entries with
  | nil => intro st h; simpa using h
  | cons e rest ih =>
    intro st h
    rw [List.foldl_cons]
    apply ih
    obtain ⟨name, inf⟩ := e
    cases inf with
    | none => exact h
    | some a =>
      intro t ht
      simp only [batchRenameStep] at ht
      revert ht
      split
      · exact fun ht => h t ht
      · next hsug =>
        split
        · exact fun ht => h t ht
        · next hex =>
          split
          · next hok =>
            intro ht
            rcases List.mem_append.mp ht with ht | ht
            · exact h t ht
            · simp only [List.mem_singleton] at ht
              subst ht
              simpa using hex
          · next hok =>
            intro ht
            rcases List.mem_append.mp ht with ht | ht
            · exact h t ht
            · simp only [List.mem_singleton] at ht
              subst ht
              simpa using hex

theorem batchRename_fold_considered (ok : Str → Str → Bool) :
    ∀ (entries : List (Str × Option AlbumInfo)) (st : RenState) (t : Str × Str × List Str),
      t ∈ (entries.foldl (batchRenameStep ok) st).trace →
      t ∈ st.trace ∨ ∃ en ∈ entries, ∃ a, en.2 = some a ∧ t.1 = en.1 ∧
        t.2.1 = getSuggestedFolderName a ∧ t.2.1 ≠ [] ∧ t.2.1 ≠ t.1 := by
  intro entries
  induction entries with
  | nil => intro st t ht; exact Or.inl (by simpa using ht)
  | cons e rest ih =>
    intro st t ht
    rw [List.foldl_cons] at ht
    rcases ih (batchRenameStep ok st e) t ht with hin | ⟨en, hen, a, ha⟩
    · obtain ⟨name, inf⟩ := e
      cases inf with
      | none => exact Or.inl hin
      | some a =>
        simp only [batchRenameStep] at hin
        revert hin
        split
        · exact fun hin => Or.inl hin
        · next hsug =>
          split
          · exact fun hin => Or.inl hin
          · next hex =>
            have push : t ∈ st.trace ++ [((name : Str), getSuggestedFolderName a, st.fs)] →
                t ∈ st.trace ∨ ∃ en ∈ (name, some a) :: rest, ∃ a', en.2 = some a' ∧
                  t.1 = en.1 ∧ t.2.1 = getSuggestedFolderName a' ∧ t.2.1 ≠ [] ∧ t.2.1 ≠ t.1 := by
              intro hin
              rcases List.mem_append.mp hin with hin | hin
              · exact Or.inl hin
              · simp only [List.mem_singleton] at hin
                subst hin
                refine Or.inr ⟨(name, some a), List.mem_cons_self _ _, a, rfl, rfl, rfl,
                  fun hc => hsug (Or.inl hc), fun hc => hsug (Or.inr hc)⟩
            split
            · next hok => exact push
            · next hok => exact push
    · exact Or.inr ⟨en, List.mem_cons_of_mem _ hen, a, ha⟩

theorem batchRename_fold_counts (ok : Str → Str → Bool) :
    ∀ (entries : List (Str × Option AlbumInfo)) (st : RenState),
      (entries.foldl (batchRenameStep ok) st).renamed +
        (entries.foldl (batchRenameStep ok) st).skipped +
        (entries.foldl (batchRenameStep ok) st).errors =
      st.renamed + st.skipped + st.errors +
        (entries.filter (fun en => en.2.isSome)).length := by
  intro entries
  induction entries with
  | nil => intro st; simp
  | cons e rest ih =>
    intro st
    rw [List.foldl_cons, ih (batchRenameStep ok st e)]
    obtain ⟨name, inf⟩ := e
    cases inf with
    | none => simp [batchRenameStep]
    | some a =>
      have hstep : (batchRenameStep ok st (name, some a)).renamed +
          (batchRenameStep ok st (name, some a)).skipped +
          (batchRenameStep ok st (name, some a)).errors =
          st.renamed + st.skipped + st.errors + 1 := by
        simp only [batchRenameStep]
        split
        · simp
          omega
        · split
          · simp
            omega
          · split
            · simp
              omega
            · simp
              omega
      rw [hstep]
      simp [List.filter_cons]
      omega


theorem batchRename_fold_preserve (ok : Str → Str → Bool) :
    ∀ (entries : List (Str × Option AlbumInfo)) (st : RenState) (d : Str),
      (d ∈ st.fs ∨ ∃ t ∈ st.trace, t.1 = d) →
      d ∈ (entries.foldl (batchRenameStep ok) st).fs ∨
        ∃ t ∈ (entries.foldl (batchRenameStep ok) st).trace, t.1 = d := by
  intro entries
  induction entries with
  | nil => intro st d h; simpa using h
  | cons e rest ih =>
    intro st d h
    rw [List.foldl_cons]
    apply ih
    obtain ⟨name, inf⟩ := e
    cases inf with
    | none => exact h
    | some a =>
      simp only [batchRenameStep]
      split
      · exact h
      · next hsug =>
        split
        · exact h
        · next hex =>
          split
          · next hok =>
            rcases h with hfs | ⟨t, ht, htd⟩
            · by_cases hd : d = name
              · subst hd
                exact Or.inr ⟨(d, getSuggestedFolderName a, st.fs),
                  List.mem_append_right _ (List.mem_singleton.mpr rfl), rfl⟩
              · exact Or.inl (List.mem_cons_of_mem _ ((List.mem_erase_of_ne hd).mpr hfs))
            · exact Or.inr ⟨t, List.mem_append_left _ ht, htd⟩
          · next hok =>
            rcases h with hfs | ⟨t, ht, htd⟩
            · exact Or.inl hfs
            · exact Or.inr ⟨t, List.mem_append_left _ ht, htd⟩

/-- C8: batch rename never overwrites an existing directory — every
attempted rename targets a destination absent from the directories existing
at that moment; a rename is attempted only for entries with an attached
record whose nonempty suggested name differs from the current display name;
successes, skips and errors are counted separately and together account for
exactly the record-attached entries; and every pre-existing directory either
still exists afterwards or was itself the source of an attempted rename. -/
theorem C8_batch_rename_no_overwrite (ok : Str → Str → Bool)
    (entries : List (Str × Option AlbumInfo)) (fs0 : List Str) :
    (∀ t ∈ (batchRename ok entries fs0).trace, t.2.1 ∉ t.2.2) ∧
    (∀ t ∈ (batchRename ok entries fs0).trace,
      ∃ en ∈ entries, ∃ a, en.2 = some a ∧ t.1 = en.1 ∧
        t.2.1 = getSuggestedFolderName a ∧ t.2.1 ≠ [] ∧ t.2.1 ≠ t.1) ∧
    ((batchRename ok entries fs0).renamed + (batchRename ok entries fs0).skipped +
        (batchRename ok entries fs0).errors =
      (entries.filter (fun en => en.2.isSome)).length) ∧
    (∀ d ∈ fs0, d ∈ (batchRename ok entries fs0).fs ∨
      ∃ t ∈ (batchRename ok entries fs0).trace, t.1 = d) := by
  refine ⟨?_, ?_, ?_, ?_⟩
  · exact batchRename_fold_trace_safe ok entries ⟨fs0, 0, 0, 0, []⟩ (by simp)
  · intro t ht
    rcases batchRename_fold_considered ok entries ⟨fs0, 0, 0, 0, []⟩ t ht with hin | hgood
    · simp at hin
    · exact hgood
  · have := batchRename_fold_counts ok entries ⟨fs0, 0, 0, 0, []⟩
    simpa using this
  · intro d hd
    exact batchRename_fold_preserve ok entries ⟨fs0, 0, 0, 0, []⟩ d (Or.inl hd)

/-- Witness for C8 at a registry with a single completed entry `Old`, a
sibling directory `Other`, and an always-succeeding filesystem rename. -/
theorem C8_batch_rename_no_overwrite_witness :
    renTraceW.2.1 ∉ renTraceW.2.2 ∧
    (∃ en ∈ renEntriesW, ∃ a, en.2 = some a ∧ renTraceW.1 = en.1 ∧
      renTraceW.2.1 = getSuggestedFolderName a ∧ renTraceW.2.1 ≠ [] ∧
      renTraceW.2.1 ≠ renTraceW.1) ∧
    ((batchRename (fun _ _ => true) renEntriesW renFsW).renamed +
        (batchRename (fun _ _ => true) renEntriesW renFsW).skipped +
        (batchRename (fun _ _ => true) renEntriesW renFsW).errors =
      (renEntriesW.filter (fun en => en.2.isSome)).length) ∧
    (("Other").data ∈ (batchRename (fun _ _ => true) renEntriesW renFsW).fs ∨
      ∃ t ∈ (batchRename (fun _ _ => true) renEntriesW renFsW).trace,
        t.1 = ("Other").data) :=
  let h := C8_batch_rename_no_overwrite (fun _ _ => true) renEntriesW renFsW
  ⟨h.1 renTraceW (by decide), h.2.1 renTraceW (by decide), h.2.2.1,
   h.2.2.2 (("Other").data) (by decide)⟩

/-! Lemmas for the persistence round-trip: comma-join/split and the
rebuild-and-resplit of the synthetic title. -/

theorem joinCS_singleton (x : Str) : joinCS [x] = x := by
  simp [joinCS, List.intercalate, List.intersperse]

theorem joinCS_cons_cons (x y : Str) (r : List Str) :
    joinCS (x :: y :: r) = x ++ ',' :: ' ' :: joinCS (y :: r) := by
  simp [joinCS, List.intercalate, List.intersperse]

theorem splitOnChar_ne_nil (sep : Char) : ∀ s : Str, splitOnChar sep s ≠ [] := by
  intro s
  cases s with
  | nil => simp [splitOnChar]
  | cons c rest =>
    simp only [splitOnChar]
    split
    · simp
    · split
      · simp
      · simp

theorem splitOnChar_no_sep (sep : Char) : ∀ s : Str, (∀ c ∈ s, c ≠ sep) →
    splitOnChar sep s = [s] := by
  intro s
  induction s with
  | nil => intro _; rfl
  | cons c rest ih =>
    intro h
    have hc : ¬(c = sep) := h c (List.mem_cons_self _ _)
    simp only [splitOnChar]
    rw [if_neg hc, ih (fun x hx => h x (List.mem_cons_of_mem _ hx))]

theorem splitOnChar_append (sep : Char) : ∀ (x t : Str), (∀ c ∈ x, c ≠ sep) →
    splitOnChar sep (x ++ sep :: t) = x :: splitOnChar sep t := by
  intro x
  induction x with
  | nil =>
    intro t _
    simp [splitOnChar]
  | cons c x' ih =>
    intro t h
    have hc : ¬(c = sep) := h c (List.mem_cons_self _ _)
    simp only [List.cons_append, splitOnChar, List.append_eq]
    rw [if_neg hc, ih t (fun z hz => h z (List.mem_cons_of_mem _ hz))]

theorem pyStrip_space_cons (s : Str) : pyStrip (' ' :: s) = pyStrip s := by
  simp [pyStrip, stripWith, List.dropWhile_cons, pySpace]

theorem pyStrip_nil : pyStrip [] = [] := rfl

theorem parseList_joinCS : ∀ l : List Str,
    (∀ x ∈ l, x ≠ [] ∧ pyStrip x = x ∧ ',' ∉ x) → parseList (joinCS l) = l := by
  intro l
  induction l with
  | nil => intro _; rfl
  | cons x r ih =>
    intro h
    obtain ⟨hxne, hxstrip, hxcomma⟩ := h x (List.mem_cons_self _ _)
    cases r with
    | nil =>
      rw [joinCS_singleton]
      unfold parseList
      rw [if_neg hxne,
        splitOnChar_no_sep ',' x (fun c hc hceq => hxcomma (hceq ▸ hc))]
      simp [hxstrip, List.isEmpty_iff, hxne]
    | cons y r' =>
      have hr := ih (fun z hz => h z (List.mem_cons_of_mem _ hz))
      have hjoin_ne : joinCS (y :: r') ≠ [] := by
        cases r' with
        | nil =>
          rw [joinCS_singleton]
          exact (h y (by simp)).1
        | cons z r'' =>
          rw [joinCS_cons_cons]
          simp
      obtain ⟨a, as, hsplit⟩ : ∃ a as, splitOnChar ',' (joinCS (y :: r')) = a :: as := by
        cases hs : splitOnChar ',' (joinCS (y :: r')) with
        | nil => exact absurd hs (splitOnChar_ne_nil ',' _)
        | cons a as => exact ⟨a, as, rfl⟩
      unfold parseList at hr
      rw [if_neg hjoin_ne, hsplit] at hr
      rw [joinCS_cons_cons]
      unfold parseList
      rw [if_neg (by simp)]
      rw [splitOnChar_append ',' x _ (fun c hc hceq => hxcomma (hceq ▸ hc))]
      have hsp : splitOnChar ',' (' ' :: joinCS (y :: r')) = (' ' :: a) :: as := by
        simp only [splitOnChar]
        rw [if_neg (by decide), hsplit]
      rw [hsp]
      simp only [List.map_cons] at hr ⊢
      rw [hxstrip, pyStrip_space_cons]
      rw [List.filter_cons_of_pos]
      · rw [hr]
      · cases hx : x with
        | nil => exact absurd hx hxne
        | cons _ _ => rfl

theorem isPrefixOf_of_append : ∀ (sep x y : Str), sep.isPrefixOf (x ++ y) = true →
    sep.length ≤ x.length → sep.isPrefixOf x = true := by
  intro sep
  induction sep with
  | nil => intro x y _ _; simp
  | cons c cs ih =>
    intro x y h hlen
    cases x with
    | nil => simp at hlen
    | cons d ds =>
      simp only [List.cons_append, List.isPrefixOf_cons₂, Bool.and_eq_true] at h ⊢
      refine ⟨h.1, ih ds y h.2 ?_⟩
      simpa using hlen

theorem containsSub_of_isPrefixOf {s : Str} (h : sepDash.isPrefixOf s = true) :
    containsSub sepDash s = true := by
  cases s with
  | nil => simp [sepDash, List.isPrefixOf] at h
  | cons c rest =>
    unfold containsSub splitFirst
    rw [if_pos h]
    rfl

theorem containsSub_cons {sep : Str} {c : Char} {rest : Str}
    (h : containsSub sep rest = true) : containsSub sep (c :: rest) = true := by
  unfold containsSub splitFirst
  split
  · rfl
  · unfold containsSub at h
    cases hr : splitFirst sep rest with
    | none => rw [hr] at h; simp at h
    | some p =>
      obtain ⟨x, y⟩ := p
      rfl

theorem splitFirst_sepDash_append (b : Str) :
    splitFirst sepDash (sepDash ++ b) = some ([], b) := by
  simp [splitFirst, sepDash, List.isPrefixOf]

theorem splitFirst_append_sepDash : ∀ (a b : Str),
    containsSub sepDash (a ++ [' ', '-']) = false →
    splitFirst sepDash (a ++ sepDash ++ b) = some (a, b) := by
  intro a
  induction a with
  | nil => intro b _; simpa using splitFirst_sepDash_append b
  | cons c a' ih =>
    intro b h
    have htail : containsSub sepDash (a' ++ [' ', '-']) = false := by
      cases hc : containsSub sepDash (a' ++ [' ', '-'])
      · rfl
      · exfalso
        have h2 := containsSub_cons (c := c) hc
        rw [List.cons_append] at h
        rw [h] at h2
        exact Bool.noConfusion h2
    have hx : sepDash.isPrefixOf (c :: (a' ++ sepDash ++ b)) = false := by
      cases hb : sepDash.isPrefixOf (c :: (a' ++ sepDash ++ b))
      · rfl
      · exfalso
        have hre : c :: (a' ++ sepDash ++ b) = (c :: a' ++ [' ', '-']) ++ (' ' :: b) := by
          simp [sepDash]
        rw [hre] at hb
        have hshort : sepDash.isPrefixOf (c :: a' ++ [' ', '-']) = true := by
          refine isPrefixOf_of_append sepDash _ (' ' :: b) hb ?_
          simp [sepDash]
        have := containsSub_of_isPrefixOf hshort
        rw [h] at this
        exact Bool.noConfusion this
    have hguard : ¬(sepDash.isPrefixOf (c :: (a' ++ sepDash ++ b)) = true) := by
      intro hh
      rw [hx] at hh
      exact Bool.noConfusion hh
    show splitFirst sepDash (c :: (a' ++ sepDash ++ b)) = some (c :: a', b)
    simp only [splitFirst]
    rw [if_neg hguard, ih b htail]

/-- C1 counterexample: the record built from the title `"X - "` has
performer `X` and empty album title; its round-trip through
`to_dict`/`from_dict` rebuilds the title as just `X`, which re-splits into
an empty performer and album title `X`, so neither field is preserved. -/
theorem C1_counterexample :
    (fromRelease rdXOnly).artist = ("X").data ∧
    (fromRelease rdXOnly).album_name = [] ∧
    (fromDict (toDict (fromRelease rdXOnly))).artist ≠ (fromRelease rdXOnly).artist ∧
    (fromDict (toDict (fromRelease rdXOnly))).album_name ≠
      (fromRelease rdXOnly).album_name := by
  decide

/-- C1 (amended): the persistence round-trip preserves performer, album
title, year, label names, catalog number, genre, style, notes, track list,
catalog id and country, and empties the image list, provided the performer
and album title are trimmed, an empty album title forces an empty
performer, the first `" - "` occurrence of the rebuilt title is the join
separator (no occurrence arises inside the performer followed by `" -"`,
and an empty performer requires a separator-free album title), and every
label, genre and style name is nonempty, trimmed and comma-free. -/
theorem C1_roundtrip (r : AlbumInfo)
    (hA : pyStrip r.artist = r.artist)
    (hB : pyStrip r.album_name = r.album_name)
    (hsep : containsSub sepDash (r.artist ++ [' ', '-']) = false)
    (hempty : r.artist = [] → containsSub sepDash r.album_name = false)
    (halb : r.album_name = [] → r.artist = [])
    (hlab : ∀ x ∈ r.label_names, x ≠ [] ∧ pyStrip x = x ∧ ',' ∉ x)
    (hgen : ∀ x ∈ r.genre, x ≠ [] ∧ pyStrip x = x ∧ ',' ∉ x)
    (hsty : ∀ x ∈ r.style, x ≠ [] ∧ pyStrip x = x ∧ ',' ∉ x) :
    (fromDict (toDict r)).artist = r.artist ∧
    (fromDict (toDict r)).album_name = r.album_name ∧
    (fromDict (toDict r)).year = r.year ∧
    (fromDict (toDict r)).label_names = r.label_names ∧
    (fromDict (toDict r)).catalog_no = r.catalog_no ∧
    (fromDict (toDict r)).genre = r.genre ∧
    (fromDict (toDict r)).style = r.style ∧
    (fromDict (toDict r)).notes = r.notes ∧
    (fromDict (toDict r)).tracklist = r.tracklist ∧
    (fromDict (toDict r)).release_id = r.release_id ∧
    (fromDict (toDict r)).country = r.country ∧
    (fromDict (toDict r)).images = [] := by
  have hlab' := parseList_joinCS r.label_names hlab
  have hgen' := parseList_joinCS r.genre hgen
  have hsty' := parseList_joinCS r.style hsty
  have hyear : (if r.year = [] then ([] : Str) else r.year) = r.year := by
    split
    · next hy => exact hy.symm
    · rfl
  by_cases hBe : r.album_name = []
  · have hAe : r.artist = [] := halb hBe
    have key : fromDict (toDict r) =
        { release_id := r.release_id
          title := []
          year := if r.year = [] then [] else r.year
          cover_image := []
          thumb := []
          artist := []
          album_name := []
          label_names := parseList (joinCS r.label_names)
          catalog_no := r.catalog_no
          country := r.country
          genre := parseList (joinCS r.genre)
          style := parseList (joinCS r.style)
          notes := r.notes
          tracklist := r.tracklist
          images := [] } := by
      simp [fromDict, toDict, fromRelease, hA, hB, hAe, hBe, splitFirst, pyStrip_nil]
    rw [key]
    exact ⟨hAe.symm, hBe.symm, hyear, hlab', rfl, hgen', hsty', rfl, rfl, rfl, rfl, rfl⟩
  · by_cases hAe : r.artist = []
    · have hnone : splitFirst sepDash r.album_name = none := by
        have hfalse := hempty hAe
        unfold containsSub at hfalse
        cases hs : splitFirst sepDash r.album_name with
        | none => rfl
        | some p => rw [hs] at hfalse; simp at hfalse
      have key : fromDict (toDict r) =
          { release_id := r.release_id
            title := r.album_name
            year := if r.year = [] then [] else r.year
            cover_image := []
            thumb := []
            artist := []
            album_name := r.album_name
            label_names := parseList (joinCS r.label_names)
            catalog_no := r.catalog_no
            country := r.country
            genre := parseList (joinCS r.genre)
            style := parseList (joinCS r.style)
            notes := r.notes
            tracklist := r.tracklist
            images := [] } := by
        simp [fromDict, toDict, fromRelease, hA, hB, hAe, hBe, hnone, pyStrip_nil]
      rw [key]
      exact ⟨hAe.symm, rfl, hyear, hlab', rfl, hgen', hsty', rfl, rfl, rfl, rfl, rfl⟩
    · have hsome := splitFirst_append_sepDash r.artist r.album_name hsep
      rw [List.append_assoc] at hsome
      have key : fromDict (toDict r) =
          { release_id := r.release_id
            title := r.artist ++ sepDash ++ r.album_name
            year := if r.year = [] then [] else r.year
            cover_image := []
            thumb := []
            artist := r.artist
            album_name := r.album_name
            label_names := parseList (joinCS r.label_names)
            catalog_no := r.catalog_no
            country := r.country
            genre := parseList (joinCS r.genre)
            style := parseList (joinCS r.style)
            notes := r.notes
            tracklist := r.tracklist
            images := [] } := by
        simp [fromDict, toDict, fromRelease, hA, hB, hAe, hBe, hsome]
      rw [key]
      exact ⟨rfl, rfl, hyear, hlab', rfl, hgen', hsty', rfl, rfl, rfl, rfl, rfl⟩

/-- Witness for C1 at the sample record (performer `A`, album `B`, year
`2001`, one label, genre and style name each), discharging every
hypothesis concretely. -/
theorem C1_roundtrip_witness :
    (fromDict (toDict albumAB)).artist = albumAB.artist ∧
    (fromDict (toDict albumAB)).album_name = albumAB.album_name ∧
    (fromDict (toDict albumAB)).year = albumAB.year ∧
    (fromDict (toDict albumAB)).label_names = albumAB.label_names ∧
    (fromDict (toDict albumAB)).catalog_no = albumAB.catalog_no ∧
    (fromDict (toDict albumAB)).genre = albumAB.genre ∧
    (fromDict (toDict albumAB)).style = albumAB.style ∧
    (fromDict (toDict albumAB)).notes = albumAB.notes ∧
    (fromDict (toDict albumAB)).tracklist = albumAB.tracklist ∧
    (fromDict (toDict albumAB)).release_id = albumAB.release_id ∧
    (fromDict (toDict albumAB)).country = albumAB.country ∧
    (fromDict (toDict albumAB)).images = [] :=
  C1_roundtrip albumAB (by decide) (by decide) (by decide) (by decide) (by decide)
    (by decide) (by decide) (by decide)

end DiscMatcher
